import Mathlib

/-!
DDRTree2: registration glue and the routines behind it.

The repository's C source `src/DDRTree_init.c` declares three native routines
and registers them with the host runtime.  The first part of this file embeds
that translation unit: the `extern` declarations, the `CallEntries` table and
`R_init_DDRTree2`, over an explicit `DllInfo` state.

The routines themselves are not part of the C file.  The second part models,
from the written specification, the two that are combinatorial rather than
numerical: the spanning-tree builder and the argument validation of
`DDRTree_reduce_dim`.
-/

namespace DDRTree2

/-! ## Part 1: `DDRTree_init.c` -/

/-- The three `extern SEXP ...` declarations of lines 11-13.  A value of this
type stands for the address of the like-named function (`&DDRTree2_sqdist`). -/
inductive Routine where
  | DDRTree2_DDRTree_reduce_dim
  | DDRTree2_pca_projection
  | DDRTree2_sqdist
  deriving DecidableEq

/-- The identifier under which each `extern` function is declared. -/
def Routine.symbol : Routine → String
  | .DDRTree2_DDRTree_reduce_dim => "DDRTree2_DDRTree_reduce_dim"
  | .DDRTree2_pca_projection => "DDRTree2_pca_projection"
  | .DDRTree2_sqdist => "DDRTree2_sqdist"

/-- Number of `SEXP` parameters in each `extern` declaration (lines 11-13). -/
def Routine.sexpParams : Routine → Nat
  | .DDRTree2_DDRTree_reduce_dim => 12
  | .DDRTree2_pca_projection => 2
  | .DDRTree2_sqdist => 2

/-- All routines declared in the translation unit, in declaration order. -/
def externDecls : List Routine :=
  [.DDRTree2_DDRTree_reduce_dim, .DDRTree2_pca_projection, .DDRTree2_sqdist]

/-- One `R_CallMethodDef`: `{const char *name; DL_FUNC fun; int numArgs;}`.
A `NULL` pointer is `none`. -/
structure R_CallMethodDef where
  name : Option String
  func : Option Routine
  numArgs : Int
  deriving DecidableEq

/-- The array `CallEntries` of lines 15-20, sentinel included. -/
def CallEntries : List R_CallMethodDef :=
  [ ⟨some "DDRTree2_DDRTree_reduce_dim", some .DDRTree2_DDRTree_reduce_dim, 12⟩,
    ⟨some "DDRTree2_pca_projection", some .DDRTree2_pca_projection, 2⟩,
    ⟨some "DDRTree2_sqdist", some .DDRTree2_sqdist, 2⟩,
    ⟨none, none, 0⟩ ]

/-- The terminating entry `{NULL, NULL, 0}` of line 19. -/
def sentinel : R_CallMethodDef := ⟨none, none, 0⟩

/-- Outcome of reading a sentinel-terminated C array. -/
inductive ScanResult where
  | visited (entries : List R_CallMethodDef)
  | pastEnd
  deriving DecidableEq

/-- The scan `for (p = tbl; p->name != NULL; p++)` over the remaining elements
of an array of known extent: stepping beyond the last element is reported as
`pastEnd`. -/
def scanEntries : List R_CallMethodDef → ScanResult
  | [] => .pastEnd
  | e :: rest =>
    match e.name with
    | none => .visited []
    | some _ =>
      match scanEntries rest with
      | .visited more => .visited (e :: more)
      | .pastEnd => .pastEnd

/-- The entries a registration call copies out of a table: everything before
the first entry whose name is `NULL`. -/
def registered (tbl : List R_CallMethodDef) : List R_CallMethodDef :=
  tbl.takeWhile (fun e => e.name.isSome)

/-- Lookup of a routine by name among registered entries (first match). -/
def lookupCall (tbl : List R_CallMethodDef) (nm : String) : Option Routine :=
  match (registered tbl).find? (fun e => e.name == some nm) with
  | some e => e.func
  | none => none

/-- The part of the host's `DllInfo` that the initialiser touches: the four
routine tables (`.C`, `.Call`, `.Fortran`, `.External`) and the flag that
allows falling back to the dynamic symbol table of the shared object. -/
structure DllInfo where
  CSymbols : List R_CallMethodDef
  CallSymbols : List R_CallMethodDef
  FortranSymbols : List R_CallMethodDef
  ExternalSymbols : List R_CallMethodDef
  useDynamicSymbols : Bool
  deriving DecidableEq

/-- Host runtime call `R_registerRoutines(dll, c, call, fortran, external)`:
each non-`NULL` table replaces the corresponding table of `dll` by its entries
up to the sentinel; a `NULL` argument registers nothing for that interface. -/
def R_registerRoutines (dll : DllInfo)
    (croutines callRoutines fortranRoutines externalRoutines :
      Option (List R_CallMethodDef)) : DllInfo :=
  { dll with
    CSymbols := match croutines with
      | some t => registered t
      | none => dll.CSymbols
    CallSymbols := match callRoutines with
      | some t => registered t
      | none => dll.CallSymbols
    FortranSymbols := match fortranRoutines with
      | some t => registered t
      | none => dll.FortranSymbols
    ExternalSymbols := match externalRoutines with
      | some t => registered t
      | none => dll.ExternalSymbols }

/-- Host runtime call `R_useDynamicSymbols(dll, value)`. -/
def R_useDynamicSymbols (dll : DllInfo) (value : Bool) : DllInfo :=
  { dll with useDynamicSymbols := value }

/-- The initialiser of lines 22-26. -/
def R_init_DDRTree2 (dll : DllInfo) : DllInfo :=
  R_useDynamicSymbols (R_registerRoutines dll none (some CallEntries) none none) false

/-- The `DllInfo` the host hands to an initialiser right after loading the
shared object: nothing registered, dynamic lookup allowed. -/
def freshDll : DllInfo :=
  { CSymbols := [], CallSymbols := [], FortranSymbols := [], ExternalSymbols := [],
    useDynamicSymbols := true }

/-- Whether `nm` names a registered entry of `tbl`. -/
def inTable (tbl : List R_CallMethodDef) (nm : String) : Bool :=
  tbl.any (fun e => e.name == some nm)

/-- Whether the host can resolve the routine name `nm` in a library whose
state is `dll` and whose shared object exports the symbols `exported`:
registered routines are always found, exported symbols only when dynamic
lookup is enabled. -/
def resolvable (dll : DllInfo) (exported : String → Bool) (nm : String) : Bool :=
  inTable dll.CSymbols nm || inTable dll.CallSymbols nm ||
  inTable dll.FortranSymbols nm || inTable dll.ExternalSymbols nm ||
  (dll.useDynamicSymbols && exported nm)

/-- The nine named inputs of the `DDRTree_reduce_dim` interface. -/
def reduceDimNamedInputs : List String :=
  ["data", "latent_dim", "num_centroids", "lambda", "sigma", "tolerance",
   "max_iter", "initial_centroids", "initial_projection"]

/-- The logical inputs of `pca_projection`. -/
def pcaProjectionInputs : List String := ["data", "d"]

/-- The logical inputs of `sqdist`. -/
def sqdistInputs : List String := ["A", "B"]

/-! ## Part 2: routines modelled from the specification -/

/-- Modelled from the spec: a dense matrix (spec section 3) held column by
column, with its declared row and column counts; `cols` lists the columns,
each a list of `nrow` rational entries.  The repository's matrix code is not
part of `DDRTree_init.c`. -/
structure Mat where
  nrow : Nat
  ncol : Nat
  cols : List (List ℚ)
  deriving DecidableEq

/-- Column `c` of a matrix (empty when out of range). -/
def Mat.col (X : Mat) (c : Nat) : List ℚ := X.cols.getD c []

/-- Entry in row `r`, column `c` (zero when out of range). -/
def Mat.entry (X : Mat) (r c : Nat) : ℚ := (X.col c).getD r 0

/-- Error kinds of spec section 7. -/
inductive EngineError where
  | DimensionError
  | NumericalError
  | StructuralError
  deriving DecidableEq

/-- Inputs of `DDRTree_reduce_dim` (spec section 6). -/
structure ReduceDimInput where
  data : Mat
  latent_dim : Nat
  num_centroids : Nat
  lambda : ℚ
  sigma : ℚ
  tolerance : ℚ
  max_iter : Nat
  initial_centroids : Option Mat
  initial_projection : Option Mat

/-- Outputs of `DDRTree_reduce_dim` (spec section 6). -/
structure ReduceDimOutput where
  projection : Mat
  centroids : Mat
  responsibilities : Mat
  tree_edges : List (Nat × Nat × ℚ)
  objective_trace : List ℚ

/-- Modelled from the spec: the dimension check of spec section 7
(`DimensionError` for `d ≥ D`, `K < 1` or `N < 2`), where `D × N` is the shape
of the data matrix.  The body of `DDRTree2_DDRTree_reduce_dim` is not in
`DDRTree_init.c`. -/
def checkDimensions (inp : ReduceDimInput) : Except EngineError Unit :=
  if inp.data.nrow ≤ inp.latent_dim ∨ inp.num_centroids < 1 ∨ inp.data.ncol < 2 then
    .error .DimensionError
  else .ok ()

/-- Modelled from the spec: the entry point `DDRTree_reduce_dim` as far as the
spec fixes it for degenerate input (section 7: a `DimensionError` is surfaced
immediately, before any computation).  `engine` is the iterative computation
that runs on accepted input; the second component counts the numerical work
done so far, which `engine` may increase.  The body of
`DDRTree2_DDRTree_reduce_dim` is not in `DDRTree_init.c`. -/
def DDRTree_reduce_dim
    (engine : ReduceDimInput → Nat → Except EngineError ReduceDimOutput × Nat)
    (inp : ReduceDimInput) (work : Nat) : Except EngineError ReduceDimOutput × Nat :=
  match checkDimensions inp with
  | .error e => (.error e, work)
  | .ok _ => engine inp work

/-- All index pairs `(i, j)` with `i < j < K`, in lexicographic order. -/
def indexPairs (K : Nat) : List (Fin K × Fin K) :=
  (List.product (List.finRange K) (List.finRange K)).filter fun p => p.1 < p.2

/-- State of the tree construction: the nodes already in the tree (most
recent first) and the edges chosen so far (in the order chosen). -/
structure PrimState (K : Nat) where
  inTree : List (Fin K)
  edges : List (Fin K × Fin K)

/-- Whether the pair has exactly one end in the tree. -/
def crossesCut {K : Nat} (inTree : List (Fin K)) (p : Fin K × Fin K) : Bool :=
  (decide (p.1 ∈ inTree)) != (decide (p.2 ∈ inTree))

/-- The lightest pair of a list; among equally light pairs the earliest in
the list wins (a later pair replaces the current choice only when strictly
lighter). -/
def pickMin (W : Mat) {K : Nat} : List (Fin K × Fin K) → Option (Fin K × Fin K)
  | [] => none
  | p :: ps =>
    match pickMin W ps with
    | none => some p
    | some q => if W.entry q.1 q.2 < W.entry p.1 p.2 then some q else some p

/-- One round of Prim's algorithm: among the pairs with exactly one end in the
tree take the lightest (ties: lowest index pair), add its outside end to the
tree and the pair to the edge list.  Without such a pair the state is
unchanged. -/
def primStep (W : Mat) {K : Nat} (st : PrimState K) : PrimState K :=
  match pickMin W ((indexPairs K).filter (crossesCut st.inTree)) with
  | none => st
  | some p =>
    { inTree := (if p.1 ∈ st.inTree then p.2 else p.1) :: st.inTree
      edges := st.edges ++ [p] }

/-- Repeat `primStep` the given number of times. -/
def primLoop (W : Mat) {K : Nat} : Nat → PrimState K → PrimState K
  | 0, st => st
  | n + 1, st => primLoop W n (primStep W st)

/-- Modelled from the spec: the Minimum Spanning Tree Builder of spec section
4.3 (Prim's algorithm on a dense `K × K` weight matrix, `K = W.nrow`, starting
from node 0, ties broken by lowest node-index pair; `StructuralError` when
`K < 1`; no edges when `K = 1`).  Each edge is reported as `(i, j, weight)`
with `i < j`.  The repository's builder is not part of `DDRTree_init.c`. -/
def mst (W : Mat) : Except EngineError (List (Nat × Nat × ℚ)) :=
  if h : 0 < W.nrow then
    .ok ((primLoop W (W.nrow - 1) ⟨[⟨0, h⟩], []⟩).edges.map
      fun p => (p.1.val, p.2.val, W.entry p.1 p.2))
  else .error .StructuralError

/-- Weight of the undirected edge `{a, b}`: the matrix entry at
`(min a b, max a b)`. -/
def edgeWeight (W : Mat) {K : Nat} (e : Sym2 (Fin K)) : ℚ :=
  W.entry e.inf e.sup

/-- The undirected edges on nodes `0, …, K − 1` named by a list of
`(i, j, weight)` triples. -/
def tripleEdges (K : Nat) (es : List (Nat × Nat × ℚ)) : Set (Sym2 (Fin K)) :=
  {e | ∃ t ∈ es, ∃ a b : Fin K, a.val = t.1 ∧ b.val = t.2.1 ∧ e = s(a, b)}

/-- The graph on nodes `0, …, K − 1` whose edges are those of the list. -/
def treeGraph (K : Nat) (es : List (Nat × Nat × ℚ)) : SimpleGraph (Fin K) :=
  SimpleGraph.fromEdgeSet (tripleEdges K es)

/-- Sum of the weights reported in an edge list. -/
def totalWeight (es : List (Nat × Nat × ℚ)) : ℚ :=
  (es.map fun t => t.2.2).sum

/-- A four-node weight matrix with a known minimal tree
(`0–1`, `1–2`, `2–3`, total weight `6`). -/
def W4 : Mat :=
  ⟨4, 4, [[0, 1, 4, 5], [1, 0, 2, 6], [4, 2, 0, 3], [5, 6, 3, 0]]⟩

/-- The undirected edges named by a list of index pairs. -/
def pairSet {K : Nat} (F : List (Fin K × Fin K)) : Finset (Sym2 (Fin K)) :=
  (F.map fun p => s(p.1, p.2)).toFinset

/-- Total weight of a finite set of undirected edges. -/
def setWeight (W : Mat) {K : Nat} (E : Finset (Sym2 (Fin K))) : ℚ :=
  ∑ e ∈ E, edgeWeight W e

/-- The loop invariant of the tree construction: the tree nodes are distinct,
one more than the edges; every chosen edge joins two tree nodes; the chosen
edges are distinct, connect all tree nodes and contain no cycle; and every
connected spanning edge set can be traded for one that contains the chosen
edges, has the same number of edges and is no heavier. -/
structure PrimInv (W : Mat) {K : Nat} (st : PrimState K) : Prop where
  nodup : st.inTree.Nodup
  nonempty : st.inTree ≠ []
  len : st.inTree.length = st.edges.length + 1
  inside : ∀ p ∈ st.edges, p.1 < p.2 ∧ p.1 ∈ st.inTree ∧ p.2 ∈ st.inTree
  edges_nodup : (st.edges.map fun p => s(p.1, p.2)).Nodup
  conn : ∀ a ∈ st.inTree, ∀ b ∈ st.inTree,
    (SimpleGraph.fromEdgeSet (pairSet st.edges : Set (Sym2 (Fin K)))).Reachable a b
  acyc : (SimpleGraph.fromEdgeSet (pairSet st.edges : Set (Sym2 (Fin K)))).IsAcyclic
  promising : ∀ E : Finset (Sym2 (Fin K)),
    (SimpleGraph.fromEdgeSet (E : Set (Sym2 (Fin K)))).Connected →
    ∃ E' : Finset (Sym2 (Fin K)), pairSet st.edges ⊆ E' ∧
      (SimpleGraph.fromEdgeSet (E' : Set (Sym2 (Fin K)))).Connected ∧
      E'.card = E.card ∧ setWeight W E' ≤ setWeight W E

open SimpleGraph

/-! ## Theorems about `DDRTree_init.c` -/

theorem registered_CallEntries :
    registered CallEntries =
      [ ⟨some "DDRTree2_DDRTree_reduce_dim", some .DDRTree2_DDRTree_reduce_dim, 12⟩,
        ⟨some "DDRTree2_pca_projection", some .DDRTree2_pca_projection, 2⟩,
        ⟨some "DDRTree2_sqdist", some .DDRTree2_sqdist, 2⟩ ] := by
  decide

theorem lookupCall_iff (nm : String) (r : Routine) :
    lookupCall CallEntries nm = some r ↔ nm = r.symbol := by
  unfold lookupCall
  rw [registered_CallEntries]
  by_cases h1 : nm = "DDRTree2_DDRTree_reduce_dim"
  · subst h1; cases r <;> simp [List.find?, Routine.symbol]
  · by_cases h2 : nm = "DDRTree2_pca_projection"
    · subst h2; cases r <;> simp [List.find?, Routine.symbol]
    · by_cases h3 : nm = "DDRTree2_sqdist"
      · subst h3; cases r <;> simp [List.find?, Routine.symbol]
      · have e1 : (some "DDRTree2_DDRTree_reduce_dim" == some nm) = false := by
          simpa using fun h => h1 h.symm
        have e2 : (some "DDRTree2_pca_projection" == some nm) = false := by
          simpa using fun h => h2 h.symm
        have e3 : (some "DDRTree2_sqdist" == some nm) = false := by
          simpa using fun h => h3 h.symm
        simp only [List.find?, e1, e2, e3]
        cases r <;> simp [Routine.symbol, h1, h2, h3]

theorem inTable_registered_iff (nm : String) :
    inTable (registered CallEntries) nm = true ↔
      (nm = "DDRTree2_DDRTree_reduce_dim" ∨ nm = "DDRTree2_pca_projection" ∨
        nm = "DDRTree2_sqdist") := by
  rw [registered_CallEntries]
  constructor
  · intro h
    simp only [inTable, List.any_cons, List.any_nil, Bool.or_false, Bool.or_eq_true,
      beq_iff_eq, Option.some.injEq] at h
    rcases h with h | h | h
    · exact Or.inl h.symm
    · exact Or.inr (Or.inl h.symm)
    · exact Or.inr (Or.inr h.symm)
  · rintro (rfl | rfl | rfl) <;> simp [inTable]

/-- C1: the non-sentinel entries of `CallEntries` are, in order, the three
routines `DDRTree2_DDRTree_reduce_dim`, `DDRTree2_pca_projection` and
`DDRTree2_sqdist`; the names are pairwise distinct; every entry is bound to
the address of the like-named `extern` function; and a lookup by name returns
routine `r` exactly when the name is the identifier of `r` (so it returns
nothing for any other name). -/
theorem C1_CallEntries_binds_three_routines :
    CallEntries.filter (fun e => decide (e ≠ sentinel)) = registered CallEntries ∧
    (registered CallEntries).map (fun e => e.name) =
      [some "DDRTree2_DDRTree_reduce_dim", some "DDRTree2_pca_projection",
       some "DDRTree2_sqdist"] ∧
    ((registered CallEntries).map (fun e => e.name)).Nodup ∧
    (registered CallEntries).map (fun e => e.func) = externDecls.map some ∧
    (registered CallEntries).map (fun e => e.name) =
      externDecls.map (fun r => some r.symbol) ∧
    (∀ (nm : String) (r : Routine), lookupCall CallEntries nm = some r ↔ nm = r.symbol) :=
  ⟨by decide, by decide, by decide, by decide, by decide, lookupCall_iff⟩

/-- C2: the entries of `CallEntries` named `DDRTree2_pca_projection` and
`DDRTree2_sqdist` both carry `numArgs = 2`, each of the two `extern`
declarations has exactly two `SEXP` parameters, and two is the number of
logical inputs of each interface (`data`, `d` and `A`, `B`). -/
theorem C2_two_argument_routines :
    (CallEntries.filter (fun e => e.name == some "DDRTree2_pca_projection")).map
        (fun e => e.numArgs) = [2] ∧
    (CallEntries.filter (fun e => e.name == some "DDRTree2_sqdist")).map
        (fun e => e.numArgs) = [2] ∧
    Routine.DDRTree2_pca_projection.sexpParams = 2 ∧
    Routine.DDRTree2_sqdist.sexpParams = 2 ∧
    pcaProjectionInputs.length = 2 ∧ sqdistInputs.length = 2 := by
  decide

/-- C3: every entry of `CallEntries` that binds a function registers as many
arguments as that function's `extern` declaration has `SEXP` parameters; in
particular `DDRTree2_DDRTree_reduce_dim` is declared with 12 parameters and
registered with `numArgs = 12`, which covers the nine named inputs of the
`DDRTree_reduce_dim` interface and leaves three further parameters. -/
theorem C3_numArgs_match_declarations :
    (∀ e ∈ CallEntries, ∀ r : Routine, e.func = some r → e.numArgs = r.sexpParams) ∧
    Routine.DDRTree2_DDRTree_reduce_dim.sexpParams = 12 ∧
    (CallEntries.filter (fun e => e.name == some "DDRTree2_DDRTree_reduce_dim")).map
        (fun e => e.numArgs) = [12] ∧
    reduceDimNamedInputs.length = 9 ∧
    reduceDimNamedInputs.Nodup ∧
    reduceDimNamedInputs.length ≤ Routine.DDRTree2_DDRTree_reduce_dim.sexpParams ∧
    Routine.DDRTree2_DDRTree_reduce_dim.sexpParams - reduceDimNamedInputs.length = 3 := by
  decide

/-- C9: started on a `DllInfo` with no `.C`, `.Fortran` or `.External`
routines, `R_init_DDRTree2` leaves exactly the three entries of `CallEntries`
in the `.Call` table, leaves the other three tables empty and the
dynamic-symbols flag `false`; afterwards a name is resolvable in the library
if and only if it is one of the three names of `CallEntries`, whatever
symbols the shared object exports. -/
theorem C9_R_init_DDRTree2_registration (dll : DllInfo) (exported : String → Bool)
    (nm : String) (hC : dll.CSymbols = []) (hF : dll.FortranSymbols = [])
    (hE : dll.ExternalSymbols = []) :
    (R_init_DDRTree2 dll).CallSymbols = registered CallEntries ∧
    (R_init_DDRTree2 dll).CSymbols = [] ∧
    (R_init_DDRTree2 dll).FortranSymbols = [] ∧
    (R_init_DDRTree2 dll).ExternalSymbols = [] ∧
    (R_init_DDRTree2 dll).useDynamicSymbols = false ∧
    (resolvable (R_init_DDRTree2 dll) exported nm = true ↔
      (nm = "DDRTree2_DDRTree_reduce_dim" ∨ nm = "DDRTree2_pca_projection" ∨
        nm = "DDRTree2_sqdist")) := by
  refine ⟨rfl, hC, hF, hE, rfl, ?_⟩
  have h := inTable_registered_iff nm
  simp only [resolvable, R_init_DDRTree2, R_useDynamicSymbols, R_registerRoutines, hC, hF, hE,
    inTable, List.any_nil, Bool.false_or, Bool.or_false, Bool.false_and] at h ⊢
  exact h

/-- C9, instantiated at the freshly loaded library whose shared object
exports every symbol. -/
theorem C9_R_init_DDRTree2_registration_witness :
    (R_init_DDRTree2 freshDll).CallSymbols = registered CallEntries ∧
    (R_init_DDRTree2 freshDll).CSymbols = [] ∧
    (R_init_DDRTree2 freshDll).FortranSymbols = [] ∧
    (R_init_DDRTree2 freshDll).ExternalSymbols = [] ∧
    (R_init_DDRTree2 freshDll).useDynamicSymbols = false ∧
    (resolvable (R_init_DDRTree2 freshDll) (fun _ => true) "R_init_DDRTree2" = true ↔
      ("R_init_DDRTree2" = "DDRTree2_DDRTree_reduce_dim" ∨
       "R_init_DDRTree2" = "DDRTree2_pca_projection" ∨
       "R_init_DDRTree2" = "DDRTree2_sqdist")) :=
  C9_R_init_DDRTree2_registration freshDll (fun _ => true) "R_init_DDRTree2" rfl rfl rfl

/-- C10: `CallEntries` has four elements, the last of which is the sentinel
`{NULL, NULL, 0}`; none of the three earlier entries has a `NULL` name or a
`NULL` function pointer; and the scan that stops at the first `NULL` name
visits exactly those three entries without stepping past the array. -/
theorem C10_CallEntries_sentinel_terminated :
    CallEntries.length = 4 ∧
    CallEntries.getLast? = some sentinel ∧
    (CallEntries.take 3).all (fun e => e.name.isSome && e.func.isSome) = true ∧
    scanEntries CallEntries = ScanResult.visited (CallEntries.take 3) ∧
    CallEntries.take 3 = registered CallEntries ∧
    scanEntries CallEntries ≠ ScanResult.pastEnd := by
  decide

/-! ## Theorems about the entry point of the engine -/

/-- C7: on input with fewer than two samples (`N < 2`, in particular `N = 1`)
`DDRTree_reduce_dim` fails with `DimensionError`, whatever the iterative
engine is; the work counter is unchanged, so no computation was attempted,
and no output (hence no output holding an undefined number) is returned. -/
theorem C7_reduce_dim_degenerate_input
    (engine : ReduceDimInput → Nat → Except EngineError ReduceDimOutput × Nat)
    (inp : ReduceDimInput) (work : Nat) (hN : inp.data.ncol < 2) :
    DDRTree_reduce_dim engine inp work = (.error .DimensionError, work) ∧
    (∀ out : ReduceDimOutput, (DDRTree_reduce_dim engine inp work).1 ≠ .ok out) := by
  have h : DDRTree_reduce_dim engine inp work = (.error .DimensionError, work) := by
    simp [DDRTree_reduce_dim, checkDimensions, hN]
  refine ⟨h, ?_⟩
  intro out
  rw [h]
  simp

/-- C7 at a single sample in three dimensions, with an engine that would
count one unit of work and fail numerically if it were ever run. -/
theorem C7_reduce_dim_degenerate_input_witness :
    DDRTree_reduce_dim (fun _ w => (.error .NumericalError, w + 1))
        ⟨⟨3, 1, [[1, 2, 3]]⟩, 2, 1, 1, 1, 0, 10, none, none⟩ 0 =
      (.error .DimensionError, 0) ∧
    (∀ out : ReduceDimOutput,
      (DDRTree_reduce_dim (fun _ w => (.error .NumericalError, w + 1))
        ⟨⟨3, 1, [[1, 2, 3]]⟩, 2, 1, 1, 1, 0, 10, none, none⟩ 0).1 ≠ .ok out) :=
  C7_reduce_dim_degenerate_input (fun _ w => (.error .NumericalError, w + 1))
    ⟨⟨3, 1, [[1, 2, 3]]⟩, 2, 1, 1, 1, 0, 10, none, none⟩ 0 (by decide)


/-! ## Graph lemmas used for the spanning-tree builder -/

section GraphLemmas
variable {V : Type}

theorem reach_of_subset {E E' : Set (Sym2 V)} (h : E ⊆ E') {a b : V}
    (hr : (fromEdgeSet E).Reachable a b) : (fromEdgeSet E').Reachable a b :=
  hr.mono (fromEdgeSet_mono h)

/-- A walk that never visits `a` survives the removal of any edge at `a`. -/
theorem reach_avoiding {E : Set (Sym2 V)} (a : V) (e : Sym2 V) (ha : a ∈ e) {c b : V}
    (p : (fromEdgeSet E).Walk c b) (hp : a ∉ p.support) :
    (fromEdgeSet (E \ {e})).Reachable c b := by
  induction p with
  | nil => exact Reachable.refl _
  | @cons c d b hadj p ih =>
    rw [Walk.support_cons, List.mem_cons, not_or] at hp
    have hd : a ∉ p.support := hp.2
    have hc : a ≠ c := hp.1
    have had : a ≠ d := by
      intro h
      apply hd
      rw [h]
      exact p.start_mem_support
    have hne : s(c, d) ≠ e := by
      intro h
      rw [← h, Sym2.mem_iff] at ha
      rcases ha with ha | ha
      · exact hc ha
      · exact had ha
    rw [fromEdgeSet_adj] at hadj
    have hadj' : (fromEdgeSet (E \ {e})).Adj c d := by
      rw [fromEdgeSet_adj]
      exact ⟨⟨hadj.1, hne⟩, hadj.2⟩
    exact hadj'.reachable.trans (ih hd)

/-- Along a path that starts inside `S` and ends outside there is an edge
`x–y` leaving `S` such that, with that edge removed, the start still reaches
`x` and `y` still reaches the end. -/
theorem crossing_edge {E : Set (Sym2 V)} (S : Set V) {a b : V}
    (p : (fromEdgeSet E).Walk a b) (hp : p.IsPath) (ha : a ∈ S) (hb : b ∉ S) :
    ∃ x y, x ∈ S ∧ y ∉ S ∧ s(x, y) ∈ E ∧
      (fromEdgeSet (E \ {s(x, y)})).Reachable a x ∧
      (fromEdgeSet (E \ {s(x, y)})).Reachable y b := by
  induction p with
  | nil => exact absurd ha hb
  | @cons a c b hadj p ih =>
    rw [Walk.cons_isPath_iff] at hp
    by_cases hc : c ∈ S
    · obtain ⟨x, y, hx, hy, hxy, h1, h2⟩ := ih hp.1 hc hb
      refine ⟨x, y, hx, hy, hxy, ?_, h2⟩
      rw [fromEdgeSet_adj] at hadj
      have hne : s(a, c) ≠ s(x, y) := by
        intro h
        have : y ∈ s(a, c) := by rw [h]; exact Sym2.mem_mk_right x y
        rw [Sym2.mem_iff] at this
        rcases this with h' | h'
        · exact hy (h' ▸ ha)
        · exact hy (h' ▸ hc)
      have hadj' : (fromEdgeSet (E \ {s(x, y)})).Adj a c := by
        rw [fromEdgeSet_adj]
        exact ⟨⟨hadj.1, hne⟩, hadj.2⟩
      exact hadj'.reachable.trans h1
    · refine ⟨a, c, ha, hc, ((fromEdgeSet_adj E).mp hadj).1, Reachable.refl _, ?_⟩
      exact reach_avoiding a s(a, c) (Sym2.mem_mk_left a c) p hp.2

/-- Exchange step: in a connected edge set, for `u` inside `S` and `v`
outside, some edge `x–y` leaving `S` can be replaced by `u–v` without losing
connectedness. -/
theorem exchange_connected {E : Set (Sym2 V)} (S : Set V) {u v : V}
    (hconn : (fromEdgeSet E).Connected) (hu : u ∈ S) (hv : v ∉ S) :
    ∃ x y, x ∈ S ∧ y ∉ S ∧ s(x, y) ∈ E ∧
      (fromEdgeSet (insert s(u, v) (E \ {s(x, y)}))).Connected := by
  classical
  obtain ⟨p, hp⟩ : ∃ p : (fromEdgeSet E).Walk u v, p.IsPath := by
    obtain ⟨q⟩ := hconn.preconnected u v
    exact ⟨q.toPath.1, q.toPath.2⟩
  obtain ⟨x, y, hx, hy, hxy, h1, h2⟩ := crossing_edge S p hp hu hv
  refine ⟨x, y, hx, hy, hxy, ?_⟩
  have hsub : E \ {s(x, y)} ⊆ insert s(u, v) (E \ {s(x, y)}) := Set.subset_insert _ _
  have huv : (fromEdgeSet (insert s(u, v) (E \ {s(x, y)}))).Reachable u v := by
    have hne : u ≠ v := fun h => hv (h ▸ hu)
    have : (fromEdgeSet (insert s(u, v) (E \ {s(x, y)}))).Adj u v := by
      rw [fromEdgeSet_adj]
      exact ⟨Set.mem_insert _ _, hne⟩
    exact this.reachable
  have hxy' : (fromEdgeSet (insert s(u, v) (E \ {s(x, y)}))).Reachable x y :=
    ((reach_of_subset hsub h1).symm.trans huv).trans (reach_of_subset hsub h2).symm
  have key : ∀ a b, (fromEdgeSet E).Adj a b →
      (fromEdgeSet (insert s(u, v) (E \ {s(x, y)}))).Reachable a b := by
    intro a b hab
    rw [fromEdgeSet_adj] at hab
    by_cases h : s(a, b) = s(x, y)
    · rw [Sym2.eq_iff] at h
      rcases h with ⟨rfl, rfl⟩ | ⟨rfl, rfl⟩
      · exact hxy'
      · exact hxy'.symm
    · have : (fromEdgeSet (insert s(u, v) (E \ {s(x, y)}))).Adj a b := by
        rw [fromEdgeSet_adj]
        exact ⟨Set.mem_insert_of_mem _ ⟨hab.1, h⟩, hab.2⟩
      exact this.reachable
  have walk_reach : ∀ a b (q : (fromEdgeSet E).Walk a b),
      (fromEdgeSet (insert s(u, v) (E \ {s(x, y)}))).Reachable a b := by
    intro a b q
    induction q with
    | nil => exact Reachable.refl _
    | cons hadj _ ih => exact (key _ _ hadj).trans ih
  haveI : Nonempty V := hconn.nonempty
  refine ⟨fun a b => ?_⟩
  obtain ⟨q⟩ := hconn.preconnected a b
  exact walk_reach a b q


/-- A node that lies on no edge is reachable only from itself. -/
theorem isolated_not_reachable {E : Set (Sym2 V)} {v a : V} (hiso : ∀ e ∈ E, v ∉ e)
    (h : (fromEdgeSet E).Reachable v a) : a = v := by
  obtain ⟨p⟩ := h
  cases p with
  | nil => rfl
  | cons hadj _ =>
    rw [fromEdgeSet_adj] at hadj
    exact absurd (Sym2.mem_mk_left _ _) (hiso _ hadj.1)

/-- Mapping a node `v` that lies on no edge of `E` onto `u` turns walks of
`E + u–v` into reachability in `E`. -/
theorem contract_pendant [DecidableEq V] {E : Set (Sym2 V)} {u v : V}
    (hiso : ∀ e ∈ E, v ∉ e) {a b : V}
    (q : (fromEdgeSet (insert s(u, v) E)).Walk a b) :
    (fromEdgeSet E).Reachable (if a = v then u else a) (if b = v then u else b) := by
  induction q with
  | nil => exact Reachable.refl _
  | @cons c d b hadj _ ih =>
    refine Reachable.trans ?_ ih
    rw [fromEdgeSet_adj] at hadj
    rcases hadj with ⟨hmem, hne⟩
    rcases hmem with h | h
    · rw [Sym2.eq_iff] at h
      rcases h with ⟨rfl, rfl⟩ | ⟨rfl, rfl⟩
      · simp only [if_true, ite_self]
        exact Reachable.refl _
      · simp only [if_true, ite_self]
        exact Reachable.refl _
    · have hc : c ≠ v := fun hc => hiso _ h (hc ▸ Sym2.mem_mk_left c d)
      have hd : d ≠ v := fun hd => hiso _ h (hd ▸ Sym2.mem_mk_right c d)
      rw [if_neg hc, if_neg hd]
      have : (fromEdgeSet E).Adj c d := by
        rw [fromEdgeSet_adj]
        exact ⟨h, hne⟩
      exact this.reachable

/-- Attaching a new node by a single edge to an acyclic graph keeps it
acyclic. -/
theorem pendant_isAcyclic [DecidableEq V] {E : Set (Sym2 V)} {u v : V}
    (hacyc : (fromEdgeSet E).IsAcyclic) (hiso : ∀ e ∈ E, v ∉ e) (huv : u ≠ v) :
    (fromEdgeSet (insert s(u, v) E)).IsAcyclic := by
  rw [isAcyclic_iff_forall_adj_isBridge] at hacyc ⊢
  intro a b hab
  rw [isBridge_iff]
  refine ⟨hab, ?_⟩
  rw [← fromEdgeSet_sdiff]
  intro hreach
  rw [fromEdgeSet_adj] at hab
  rcases hab with ⟨hmem, hne⟩
  by_cases h : s(a, b) = s(u, v)
  · have hsub : (insert s(u, v) E) \ {s(a, b)} ⊆ E := by
      intro e he
      rcases he with ⟨he1, he2⟩
      rcases he1 with he1 | he1
      · exact absurd (he1.trans h.symm) he2
      · exact he1
    have hr := hreach.mono (fromEdgeSet_mono hsub)
    rw [Sym2.eq_iff] at h
    rcases h with ⟨rfl, rfl⟩ | ⟨rfl, rfl⟩
    · exact huv (isolated_not_reachable hiso hr.symm)
    · exact huv (isolated_not_reachable hiso hr)
  · have hmemE : s(a, b) ∈ E := by
      rcases hmem with h' | h'
      · exact absurd h' h
      · exact h'
    have ha : a ≠ v := fun hc => hiso _ hmemE (hc ▸ Sym2.mem_mk_left a b)
    have hb : b ≠ v := fun hc => hiso _ hmemE (hc ▸ Sym2.mem_mk_right a b)
    have hadjE : (fromEdgeSet E).Adj a b := by
      rw [fromEdgeSet_adj]; exact ⟨hmemE, hne⟩
    have hbr := hacyc hadjE
    rw [isBridge_iff, ← fromEdgeSet_sdiff] at hbr
    apply hbr.2
    have heq : (insert s(u, v) E) \ {s(a, b)} = insert s(u, v) (E \ {s(a, b)}) := by
      ext e
      simp only [Set.mem_diff, Set.mem_insert_iff, Set.mem_singleton_iff]
      constructor
      · rintro ⟨h1 | h1, h2⟩
        · exact Or.inl h1
        · exact Or.inr ⟨h1, h2⟩
      · rintro (h1 | ⟨h1, h2⟩)
        · exact ⟨Or.inl h1, fun h2 => h (h2 ▸ h1 ▸ rfl)⟩
        · exact ⟨Or.inr h1, h2⟩
    rw [heq] at hreach
    obtain ⟨q⟩ := hreach
    have hiso' : ∀ e ∈ E \ {s(a, b)}, v ∉ e := fun e he => hiso e he.1
    have := contract_pendant hiso' q
    rwa [if_neg ha, if_neg hb] at this


end GraphLemmas

/-! ## Theorems about the Minimum Spanning Tree Builder -/

theorem mem_indexPairs {K : Nat} (p : Fin K × Fin K) : p ∈ indexPairs K ↔ p.1 < p.2 := by
  obtain ⟨a, b⟩ := p
  simp only [indexPairs, List.mem_filter, decide_eq_true_eq, and_iff_right_iff_imp]
  intro _
  exact List.mem_product.mpr ⟨List.mem_finRange a, List.mem_finRange b⟩

theorem pickMin_none {K : Nat} (W : Mat) (l : List (Fin K × Fin K))
    (h : pickMin W l = none) : l = [] := by
  cases l with
  | nil => rfl
  | cons p ps =>
    simp only [pickMin] at h
    split at h
    · cases h
    · split_ifs at h

/-- Whatever `pickMin` returns is a member of the list and no heavier than
any member. -/
theorem pickMin_spec {K : Nat} (W : Mat) (l : List (Fin K × Fin K)) (p : Fin K × Fin K)
    (h : pickMin W l = some p) :
    p ∈ l ∧ ∀ q ∈ l, W.entry p.1 p.2 ≤ W.entry q.1 q.2 := by
  induction l generalizing p with
  | nil => simp [pickMin] at h
  | cons a l ih =>
    simp only [pickMin] at h
    split at h
    next hnone =>
      have hl := pickMin_none W l hnone
      subst hl
      cases h
      simp
    next q hq =>
      obtain ⟨hqm, hqle⟩ := ih q hq
      split_ifs at h with hlt
      · cases h
        refine ⟨List.mem_cons_of_mem _ hqm, ?_⟩
        intro r hr
        rcases List.mem_cons.mp hr with rfl | hr
        · exact le_of_lt hlt
        · exact hqle r hr
      · cases h
        refine ⟨List.mem_cons_self _ _, ?_⟩
        intro r hr
        rcases List.mem_cons.mp hr with rfl | hr
        · exact le_refl _
        · exact le_trans (not_lt.mp hlt) (hqle r hr)

theorem crossesCut_iff {K : Nat} (S : List (Fin K)) (p : Fin K × Fin K) :
    crossesCut S p = true ↔ (p.1 ∈ S ∧ p.2 ∉ S) ∨ (p.1 ∉ S ∧ p.2 ∈ S) := by
  unfold crossesCut
  by_cases h1 : p.1 ∈ S <;> by_cases h2 : p.2 ∈ S <;> simp [h1, h2]

theorem exists_not_mem_of_length_lt {K : Nat} (S : List (Fin K)) (h : S.length < K) :
    ∃ b : Fin K, b ∉ S := by
  by_contra hall
  push_neg at hall
  have h1 : (Finset.univ : Finset (Fin K)) ⊆ S.toFinset := by
    intro x _
    exact List.mem_toFinset.mpr (hall x)
  have h2 := Finset.card_le_card h1
  have h3 := List.toFinset_card_le S
  simp at h2
  omega

theorem edgeWeight_of_lt {K : Nat} (W : Mat) (a b : Fin K) (h : a < b) :
    edgeWeight W s(a, b) = W.entry a b := by
  simp [edgeWeight, min_eq_left (le_of_lt h), max_eq_right (le_of_lt h)]

theorem edgeWeight_of_gt {K : Nat} (W : Mat) (a b : Fin K) (h : b < a) :
    edgeWeight W s(a, b) = W.entry b a := by
  simp [edgeWeight, min_eq_right (le_of_lt h), max_eq_left (le_of_lt h)]

/-- A pair picked by `pickMin` among the crossing pairs is no heavier than any
edge with one end inside and one end outside the tree. -/
theorem picked_le_crossing {K : Nat} (W : Mat) (S : List (Fin K)) (p : Fin K × Fin K)
    (hp : pickMin W ((indexPairs K).filter (crossesCut S)) = some p)
    (x y : Fin K) (hx : x ∈ S) (hy : y ∉ S) :
    W.entry p.1 p.2 ≤ edgeWeight W s(x, y) := by
  have hxy : x ≠ y := fun h => hy (h ▸ hx)
  obtain ⟨_, hle⟩ := pickMin_spec W _ p hp
  rcases lt_or_gt_of_ne hxy with h | h
  · rw [edgeWeight_of_lt W x y h]
    apply hle (x, y)
    rw [List.mem_filter, mem_indexPairs, crossesCut_iff]
    exact ⟨h, Or.inl ⟨hx, hy⟩⟩
  · rw [edgeWeight_of_gt W x y h]
    apply hle (y, x)
    rw [List.mem_filter, mem_indexPairs, crossesCut_iff]
    exact ⟨h, Or.inr ⟨hy, hx⟩⟩

theorem pick_exists {K : Nat} (W : Mat) (S : List (Fin K)) (hne : S ≠ [])
    (hlen : S.length < K) :
    ∃ p, pickMin W ((indexPairs K).filter (crossesCut S)) = some p := by
  obtain ⟨b, hb⟩ := exists_not_mem_of_length_lt S hlen
  obtain ⟨a, ha⟩ := List.exists_mem_of_ne_nil S hne
  have hab : a ≠ b := fun h => hb (h ▸ ha)
  cases hpk : pickMin W ((indexPairs K).filter (crossesCut S)) with
  | some p => exact ⟨p, rfl⟩
  | none =>
    have hnil := pickMin_none W _ hpk
    exfalso
    rcases lt_or_gt_of_ne hab with h | h
    · have : (a, b) ∈ (indexPairs K).filter (crossesCut S) := by
        rw [List.mem_filter, mem_indexPairs, crossesCut_iff]
        exact ⟨h, Or.inl ⟨ha, hb⟩⟩
      rw [hnil] at this
      simp at this
    · have : (b, a) ∈ (indexPairs K).filter (crossesCut S) := by
        rw [List.mem_filter, mem_indexPairs, crossesCut_iff]
        exact ⟨h, Or.inr ⟨hb, ha⟩⟩
      rw [hnil] at this
      simp at this


theorem pairSet_append_singleton {K : Nat} (F : List (Fin K × Fin K)) (p : Fin K × Fin K) :
    pairSet (F ++ [p]) = insert s(p.1, p.2) (pairSet F) := by
  ext e
  simp only [pairSet, List.map_append, List.map_cons, List.map_nil, List.toFinset_append,
    List.toFinset_cons, List.toFinset_nil, Finset.mem_union, Finset.mem_insert,
    List.mem_toFinset, List.mem_map]
  constructor
  · rintro (h | h | h)
    · exact Or.inr h
    · exact Or.inl h
    · simp at h
  · rintro (h | h)
    · exact Or.inr (Or.inl h)
    · exact Or.inl h

theorem mem_pairSet {K : Nat} (F : List (Fin K × Fin K)) (e : Sym2 (Fin K)) :
    e ∈ pairSet F ↔ ∃ p ∈ F, s(p.1, p.2) = e := by
  simp [pairSet]

/-- Ends of chosen edges are tree nodes. -/
theorem PrimInv.ends_inside {W : Mat} {K : Nat} {st : PrimState K} (hinv : PrimInv W st)
    {e : Sym2 (Fin K)} (he : e ∈ pairSet st.edges) {z : Fin K} (hz : z ∈ e) :
    z ∈ st.inTree := by
  rw [mem_pairSet] at he
  obtain ⟨p, hp, rfl⟩ := he
  obtain ⟨_, h1, h2⟩ := hinv.inside p hp
  rw [Sym2.mem_iff] at hz
  rcases hz with rfl | rfl
  · exact h1
  · exact h2

/-- The invariant survives adding a lightest edge `u–v` between a tree node
`u` and an outside node `v`. -/
theorem PrimInv.extend {W : Mat} {K : Nat} {st : PrimState K} (hinv : PrimInv W st)
    (p : Fin K × Fin K) (u v : Fin K) (hu : u ∈ st.inTree) (hv : v ∉ st.inTree)
    (hlt : p.1 < p.2) (hp : s(p.1, p.2) = s(u, v))
    (hmin : ∀ x y, x ∈ st.inTree → y ∉ st.inTree → W.entry p.1 p.2 ≤ edgeWeight W s(x, y)) :
    PrimInv W ⟨v :: st.inTree, st.edges ++ [p]⟩ := by
  have huv : u ≠ v := fun h => hv (h ▸ hu)
  have hiso : ∀ e ∈ (pairSet st.edges : Set (Sym2 (Fin K))), v ∉ e := by
    intro e he hve
    exact hv (hinv.ends_inside (Finset.mem_coe.mp he) hve)
  have hnew : s(u, v) ∉ pairSet st.edges := by
    intro h
    exact hv (hinv.ends_inside h (Sym2.mem_mk_right u v))
  have hset : pairSet (st.edges ++ [p]) = insert s(u, v) (pairSet st.edges) := by
    rw [pairSet_append_singleton, hp]
  have hsub : (pairSet st.edges : Set (Sym2 (Fin K))) ⊆
      (pairSet (st.edges ++ [p]) : Set (Sym2 (Fin K))) := by
    rw [hset]
    intro e he
    exact Finset.mem_coe.mpr (Finset.mem_insert_of_mem (Finset.mem_coe.mp he))
  have hpends : (p.1 = u ∧ p.2 = v) ∨ (p.1 = v ∧ p.2 = u) := Sym2.eq_iff.mp hp
  refine
    { nodup := List.nodup_cons.mpr ⟨hv, hinv.nodup⟩
      nonempty := List.cons_ne_nil _ _
      len := by simp [hinv.len]
      inside := ?_
      edges_nodup := ?_
      conn := ?_
      acyc := ?_
      promising := ?_ }
  · intro q hq
    rcases List.mem_append.mp hq with hq | hq
    · obtain ⟨h0, h1, h2⟩ := hinv.inside q hq
      exact ⟨h0, List.mem_cons_of_mem _ h1, List.mem_cons_of_mem _ h2⟩
    · have hqp : q = p := by simpa using hq
      subst hqp
      refine ⟨hlt, ?_, ?_⟩
      · rcases hpends with ⟨h1, _⟩ | ⟨h1, _⟩
        · rw [h1]; exact List.mem_cons_of_mem _ hu
        · rw [h1]; exact List.mem_cons_self _ _
      · rcases hpends with ⟨_, h2⟩ | ⟨_, h2⟩
        · rw [h2]; exact List.mem_cons_self _ _
        · rw [h2]; exact List.mem_cons_of_mem _ hu
  · rw [List.map_append, List.nodup_append]
    refine ⟨hinv.edges_nodup, by simp, ?_⟩
    intro e he1 he2
    have he2' : e = s(u, v) := by
      simp only [List.map_cons, List.map_nil, List.mem_singleton] at he2
      rw [he2, hp]
    apply hnew
    rw [← he2']
    simpa [pairSet] using he1
  · have hvu : (SimpleGraph.fromEdgeSet
        (pairSet (st.edges ++ [p]) : Set (Sym2 (Fin K)))).Reachable v u := by
      have : (SimpleGraph.fromEdgeSet
          (pairSet (st.edges ++ [p]) : Set (Sym2 (Fin K)))).Adj u v := by
        rw [SimpleGraph.fromEdgeSet_adj, hset]
        exact ⟨Finset.mem_coe.mpr (Finset.mem_insert_self _ _), huv⟩
      exact this.reachable.symm
    have hold : ∀ a ∈ st.inTree, (SimpleGraph.fromEdgeSet
        (pairSet (st.edges ++ [p]) : Set (Sym2 (Fin K)))).Reachable u a := fun a ha =>
      (hinv.conn u hu a ha).mono (SimpleGraph.fromEdgeSet_mono hsub)
    have hall : ∀ a ∈ v :: st.inTree, (SimpleGraph.fromEdgeSet
        (pairSet (st.edges ++ [p]) : Set (Sym2 (Fin K)))).Reachable u a := by
      intro a ha
      rcases List.mem_cons.mp ha with rfl | ha
      · exact hvu.symm
      · exact hold a ha
    intro a ha b hb
    exact (hall a ha).symm.trans (hall b hb)
  · rw [hset, Finset.coe_insert]
    exact pendant_isAcyclic hinv.acyc hiso huv
  · intro E hE
    obtain ⟨E', hF, hconn, hcard, hwt⟩ := hinv.promising E hE
    by_cases hin : s(u, v) ∈ E'
    · refine ⟨E', ?_, hconn, hcard, hwt⟩
      rw [hset]
      exact Finset.insert_subset hin hF
    · obtain ⟨x, y, hx, hy, hxy, hconn'⟩ :=
        exchange_connected (fun z => z ∈ st.inTree) (u := u) (v := v) hconn hu hv
      have hxy' : s(x, y) ∈ E' := Finset.mem_coe.mp hxy
      refine ⟨insert s(u, v) (E'.erase s(x, y)), ?_, ?_, ?_, ?_⟩
      · rw [hset]
        apply Finset.insert_subset_insert
        intro e he
        rw [Finset.mem_erase]
        refine ⟨?_, hF he⟩
        intro h
        rw [h] at he
        exact hy (hinv.ends_inside he (Sym2.mem_mk_right x y))
      · rw [Finset.coe_insert, Finset.coe_erase]
        exact hconn'
      · have hnot : s(u, v) ∉ E'.erase s(x, y) := fun h => hin (Finset.mem_of_mem_erase h)
        rw [Finset.card_insert_of_not_mem hnot, Finset.card_erase_of_mem hxy', ← hcard]
        have : 0 < E'.card := Finset.card_pos.mpr ⟨_, hxy'⟩
        omega
      · have hnot : s(u, v) ∉ E'.erase s(x, y) := fun h => hin (Finset.mem_of_mem_erase h)
        have h1 : setWeight W (insert s(u, v) (E'.erase s(x, y))) =
            edgeWeight W s(u, v) + setWeight W (E'.erase s(x, y)) := by
          unfold setWeight
          rw [Finset.sum_insert hnot]
        have h2 : setWeight W (E'.erase s(x, y)) + edgeWeight W s(x, y) = setWeight W E' := by
          unfold setWeight
          rw [Finset.sum_erase_add _ _ hxy']
        have h3 : edgeWeight W s(u, v) ≤ edgeWeight W s(x, y) := by
          rw [← hp, edgeWeight_of_lt W p.1 p.2 hlt]
          exact hmin x y hx hy
        linarith

/-- While some node is outside the tree, one round keeps the invariant and
adds exactly one node. -/
theorem primStep_inv {K : Nat} (W : Mat) (st : PrimState K) (hinv : PrimInv W st)
    (hlen : st.inTree.length < K) :
    PrimInv W (primStep W st) ∧ (primStep W st).inTree.length = st.inTree.length + 1 := by
  obtain ⟨p, hp⟩ := pick_exists W st.inTree hinv.nonempty hlen
  obtain ⟨hmem, _⟩ := pickMin_spec W _ p hp
  rw [List.mem_filter, mem_indexPairs, crossesCut_iff] at hmem
  obtain ⟨hlt, hcross⟩ := hmem
  have hstep : primStep W st =
      ⟨(if p.1 ∈ st.inTree then p.2 else p.1) :: st.inTree, st.edges ++ [p]⟩ := by
    simp only [primStep, hp]
  rw [hstep]
  refine ⟨?_, by simp⟩
  have hmin := picked_le_crossing W st.inTree p hp
  rcases hcross with ⟨h1, h2⟩ | ⟨h1, h2⟩
  · rw [if_pos h1]
    exact hinv.extend p p.1 p.2 h1 h2 hlt rfl (fun x y hx hy => hmin x y hx hy)
  · rw [if_neg h1]
    exact hinv.extend p p.2 p.1 h2 h1 hlt Sym2.eq_swap (fun x y hx hy => hmin x y hx hy)

/-- The invariant holds after `n` rounds, which add `n` nodes, as long as
`n` nodes were outside the tree. -/
theorem primLoop_inv {K : Nat} (W : Mat) (n : Nat) (st : PrimState K) (hinv : PrimInv W st)
    (hlen : st.inTree.length + n ≤ K) :
    PrimInv W (primLoop W n st) ∧ (primLoop W n st).inTree.length = st.inTree.length + n := by
  induction n generalizing st with
  | zero => exact ⟨hinv, rfl⟩
  | succ n ih =>
    obtain ⟨h1, h2⟩ := primStep_inv W st hinv (by omega)
    obtain ⟨h3, h4⟩ := ih (primStep W st) h1 (by omega)
    refine ⟨h3, ?_⟩
    simp only [primLoop]
    omega

/-- The invariant holds for the one-node tree without edges. -/
theorem primInv_init {K : Nat} (W : Mat) (r : Fin K) : PrimInv W ⟨[r], []⟩ where
  nodup := List.nodup_singleton r
  nonempty := List.cons_ne_nil _ _
  len := rfl
  inside := by intro p hp; simp at hp
  edges_nodup := by simp
  conn := by
    intro a ha b hb
    simp only [List.mem_singleton] at ha hb
    rw [ha, hb]
  acyc := by
    have : (pairSet ([] : List (Fin K × Fin K)) : Set (Sym2 (Fin K))) = ∅ := by
      simp [pairSet]
    rw [this, SimpleGraph.fromEdgeSet_empty]
    exact SimpleGraph.isAcyclic_bot
  promising := fun E hE => ⟨E, by simp [pairSet], hE, rfl, le_refl _⟩



theorem tripleEdges_map {K : Nat} (W : Mat) (F : List (Fin K × Fin K)) :
    tripleEdges K (F.map fun p => (p.1.val, p.2.val, W.entry p.1 p.2)) =
      (pairSet F : Set (Sym2 (Fin K))) := by
  ext e
  simp only [tripleEdges, Set.mem_setOf_eq, List.mem_map, Finset.mem_coe, mem_pairSet]
  constructor
  · rintro ⟨t, ⟨p, hp, rfl⟩, a, b, ha, hb, rfl⟩
    refine ⟨p, hp, ?_⟩
    have h1 : a = p.1 := Fin.ext ha
    have h2 : b = p.2 := Fin.ext hb
    rw [h1, h2]
  · rintro ⟨p, hp, rfl⟩
    exact ⟨_, ⟨p, hp, rfl⟩, p.1, p.2, rfl, rfl, rfl⟩

theorem totalWeight_map {K : Nat} (W : Mat) (F : List (Fin K × Fin K)) :
    totalWeight (F.map fun p => (p.1.val, p.2.val, W.entry p.1 p.2)) =
      (F.map fun p => W.entry p.1 p.2).sum := by
  simp [totalWeight, Function.comp_def]

theorem PrimInv.setWeight_eq {W : Mat} {K : Nat} {st : PrimState K} (hinv : PrimInv W st) :
    setWeight W (pairSet st.edges) = (st.edges.map fun p => W.entry p.1 p.2).sum := by
  unfold setWeight pairSet
  rw [List.sum_toFinset _ hinv.edges_nodup, List.map_map]
  congr 1
  apply List.map_congr_left
  intro p hp
  exact edgeWeight_of_lt W p.1 p.2 (hinv.inside p hp).1

theorem PrimInv.card_pairSet {W : Mat} {K : Nat} {st : PrimState K} (hinv : PrimInv W st) :
    (pairSet st.edges).card = st.edges.length := by
  unfold pairSet
  rw [List.toFinset_card_of_nodup hinv.edges_nodup, List.length_map]

theorem mem_of_length_eq {K : Nat} (S : List (Fin K)) (hnd : S.Nodup) (hlen : S.length = K)
    (a : Fin K) : a ∈ S := by
  have h1 : S.toFinset.card = K := by rw [List.toFinset_card_of_nodup hnd, hlen]
  have h2 : S.toFinset = Finset.univ := by
    apply Finset.eq_univ_of_card
    rw [h1, Fintype.card_fin]
  rw [← List.mem_toFinset, h2]
  exact Finset.mem_univ a

/-- What the finished construction satisfies when all `K` nodes are in the
tree. -/
theorem PrimInv.final {W : Mat} {K : Nat} {st : PrimState K} (hinv : PrimInv W st)
    (hK : 0 < K) (hlen : st.inTree.length = K) :
    st.edges.length = K - 1 ∧
    (SimpleGraph.fromEdgeSet (pairSet st.edges : Set (Sym2 (Fin K)))).IsTree ∧
    ∀ (T : SimpleGraph (Fin K)) [DecidableRel T.Adj], T.IsTree →
      (st.edges.map fun p => W.entry p.1 p.2).sum ≤ ∑ e ∈ T.edgeFinset, edgeWeight W e := by
  have hlenE : st.edges.length = K - 1 := by
    have := hinv.len
    omega
  refine ⟨hlenE, ⟨?_, hinv.acyc⟩, ?_⟩
  · haveI : Nonempty (Fin K) := ⟨⟨0, hK⟩⟩
    exact ⟨fun a b => hinv.conn a (mem_of_length_eq _ hinv.nodup hlen a) b
      (mem_of_length_eq _ hinv.nodup hlen b)⟩
  · intro T _ hT
    have hcoe : SimpleGraph.fromEdgeSet (T.edgeFinset : Set (Sym2 (Fin K))) = T := by
      rw [SimpleGraph.coe_edgeFinset, SimpleGraph.fromEdgeSet_edgeSet]
    have hconn : (SimpleGraph.fromEdgeSet (T.edgeFinset : Set (Sym2 (Fin K)))).Connected := by
      rw [hcoe]
      exact hT.isConnected
    obtain ⟨E', hsub, _, hcard, hwt⟩ := hinv.promising T.edgeFinset hconn
    have hTc : T.edgeFinset.card + 1 = K := by
      have := hT.card_edgeFinset
      rwa [Fintype.card_fin] at this
    have heq : pairSet st.edges = E' := by
      apply Finset.eq_of_subset_of_card_le hsub
      rw [hcard, hinv.card_pairSet]
      omega
    rw [← hinv.setWeight_eq, heq]
    exact hwt

theorem edgeWeight_symm {K : Nat} (W : Mat)
    (hsym : ∀ i, i < K → ∀ j, j < K → W.entry i j = W.entry j i)
    (a b : Fin K) : edgeWeight W s(a, b) = W.entry a b := by
  rcases lt_trichotomy a b with h | h | h
  · exact edgeWeight_of_lt W a b h
  · subst h
    simp [edgeWeight]
  · rw [edgeWeight_of_gt W a b h]
    exact hsym _ b.isLt _ a.isLt

theorem mst_of_pos (W : Mat) (h0 : 0 < W.nrow) :
    mst W = .ok ((primLoop W (W.nrow - 1) ⟨[⟨0, h0⟩], []⟩).edges.map
      fun p => (p.1.val, p.2.val, W.entry p.1 p.2)) := by
  unfold mst
  rw [dif_pos h0]

theorem exists_edge_of_connected {K : Nat} {E : Set (Sym2 (Fin K))}
    (hconn : (SimpleGraph.fromEdgeSet E).Connected) (hK : 2 ≤ K) (v : Fin K) :
    ∃ e ∈ E, v ∈ e := by
  obtain ⟨w, hw⟩ : ∃ w : Fin K, w ≠ v := by
    by_cases h : v.val = 0
    · exact ⟨⟨1, by omega⟩, fun hc => by
        have := congrArg Fin.val hc
        simp only at this
        omega⟩
    · exact ⟨⟨0, by omega⟩, fun hc => by
        have := congrArg Fin.val hc
        simp only at this
        omega⟩
  obtain ⟨q⟩ := hconn.preconnected v w
  cases q with
  | nil => exact absurd rfl hw
  | cons hadj _ =>
    rw [SimpleGraph.fromEdgeSet_adj] at hadj
    exact ⟨_, hadj.1, Sym2.mem_mk_left _ _⟩

/-- C6: for every symmetric weight matrix `W` with `K = W.nrow` rows: when
`K = 1` the builder returns no edges (the single-node tree); when `K ≥ 2` it
returns exactly `K − 1` edges `(i, j, W[i,j])` with `i < j < K`, the graph
they form on the `K` nodes is a tree (connected and acyclic), every node is an
end of some returned edge, and their total weight is at most the total weight
of any spanning tree of the complete graph on the `K` nodes.  Non-negativity
of the weights is not needed. -/
theorem C6_mst_minimum_spanning_tree (W : Mat)
    (hsym : ∀ i, i < W.nrow → ∀ j, j < W.nrow → W.entry i j = W.entry j i) :
    (W.nrow = 1 → mst W = .ok [] ∧ (treeGraph W.nrow []).IsTree) ∧
    (2 ≤ W.nrow → ∃ es, mst W = .ok es ∧ es.length = W.nrow - 1 ∧
      (∀ t ∈ es, t.1 < t.2.1 ∧ t.2.1 < W.nrow ∧ t.2.2 = W.entry t.1 t.2.1) ∧
      (treeGraph W.nrow es).IsTree ∧
      (∀ v : Fin W.nrow, ∃ t ∈ es, v.val = t.1 ∨ v.val = t.2.1) ∧
      ∀ (T : SimpleGraph (Fin W.nrow)) [DecidableRel T.Adj], T.IsTree →
        totalWeight es ≤ ∑ e ∈ T.edgeFinset, edgeWeight W e) ∧
    (∀ a b : Fin W.nrow, edgeWeight W s(a, b) = W.entry a b) := by
  refine ⟨?_, ?_, edgeWeight_symm W hsym⟩
  · intro h1
    have h0 : 0 < W.nrow := by omega
    obtain ⟨hinv, hlen⟩ := primLoop_inv W (W.nrow - 1) ⟨[⟨0, h0⟩], []⟩
      (primInv_init W ⟨0, h0⟩) (by simp only [List.length_singleton]; omega)
    have hlen' : (primLoop W (W.nrow - 1) ⟨[⟨0, h0⟩], []⟩).inTree.length = W.nrow := by
      simp only [List.length_singleton] at hlen
      omega
    obtain ⟨hE, htree, _⟩ := hinv.final h0 hlen'
    have hnil : (primLoop W (W.nrow - 1) ⟨[⟨0, h0⟩], []⟩).edges = [] := by
      apply List.length_eq_zero.mp
      omega
    refine ⟨by rw [mst_of_pos W h0, hnil]; rfl, ?_⟩
    have := tripleEdges_map W (primLoop W (W.nrow - 1) ⟨[⟨0, h0⟩], []⟩).edges
    unfold treeGraph
    rw [hnil] at this htree
    rw [List.map_nil] at this
    rw [this]
    exact htree
  · intro h2
    have h0 : 0 < W.nrow := by omega
    obtain ⟨hinv, hlen⟩ := primLoop_inv W (W.nrow - 1) ⟨[⟨0, h0⟩], []⟩
      (primInv_init W ⟨0, h0⟩) (by simp only [List.length_singleton]; omega)
    have hlen' : (primLoop W (W.nrow - 1) ⟨[⟨0, h0⟩], []⟩).inTree.length = W.nrow := by
      simp only [List.length_singleton] at hlen
      omega
    obtain ⟨hE, htree, hminimal⟩ := hinv.final h0 hlen'
    refine ⟨_, mst_of_pos W h0, ?_, ?_, ?_, ?_, ?_⟩
    · rw [List.length_map]; exact hE
    · intro t ht
      obtain ⟨p, hp, rfl⟩ := List.mem_map.mp ht
      exact ⟨(hinv.inside p hp).1, p.2.isLt, rfl⟩
    · unfold treeGraph
      rw [tripleEdges_map]
      exact htree
    · intro v
      obtain ⟨e, he, hve⟩ := exists_edge_of_connected htree.isConnected h2 v
      obtain ⟨p, hp, rfl⟩ := (mem_pairSet _ e).mp (Finset.mem_coe.mp he)
      refine ⟨_, List.mem_map.mpr ⟨p, hp, rfl⟩, ?_⟩
      rcases Sym2.mem_iff.mp hve with h | h
      · exact Or.inl (congrArg Fin.val h)
      · exact Or.inr (congrArg Fin.val h)
    · intro T _ hT
      rw [totalWeight_map]
      exact hminimal T hT

/-- The builder run on the four-node example. -/
theorem mst_W4 : (mst W4).toOption = some [(0, 1, 1), (1, 2, 2), (2, 3, 3)] := by
  decide

/-- C6 at the four-node example matrix: three edges forming a spanning tree of
minimal total weight. -/
theorem C6_mst_minimum_spanning_tree_witness :
    ∃ es, mst W4 = .ok es ∧ es.length = W4.nrow - 1 ∧
      (∀ t ∈ es, t.1 < t.2.1 ∧ t.2.1 < W4.nrow ∧ t.2.2 = W4.entry t.1 t.2.1) ∧
      (treeGraph W4.nrow es).IsTree ∧
      (∀ v : Fin W4.nrow, ∃ t ∈ es, v.val = t.1 ∨ v.val = t.2.1) ∧
      ∀ (T : SimpleGraph (Fin W4.nrow)) [DecidableRel T.Adj], T.IsTree →
        totalWeight es ≤ ∑ e ∈ T.edgeFinset, edgeWeight W4 e :=
  (C6_mst_minimum_spanning_tree W4 (by decide)).2.1 (by decide)

end DDRTree2
